import Mathlib

/-!
Verification of the splitter expense-sharing service.

The Go source is shallowly embedded: the ledger core (`CalculateBalance` in
package `ledger`), the in-memory expense store (package `database`), the two
cache implementations (package `cache`) and the expense-creation API handler
(`postExpenses` in package `api`).  Monetary amounts (Go `float64`) are
modelled as rationals; Go maps are modelled as association lists whose
insertion order stands in for Go's (unspecified) map iteration order, so all
statements about the produced debit/credit lists are made per counterparty or
as sets.  Timestamps are abstracted to integers, `time.Parse` to an `Option`
field on the decoded request, and the cache's TTL is elided (the model is
time-free, so every statement is about immediate reads within the TTL).
-/

/-- Embeds `ledger.Expense`: an expense paid by `OwnerID`, shared by the users
in `Users` (as stored, the slice includes the owner). -/
structure Expense where
  ExpenseID : Int
  OwnerID : Int
  Users : List Int
  Amount : ℚ
  Description : String
  CreatedAt : Int
deriving DecidableEq

/-- Embeds `ledger.Debt`: money owed by one user to another. -/
structure Debt where
  UserID : Int
  Amount : ℚ
deriving DecidableEq

set_option linter.dupNamespace false in
/-- Embeds `ledger.Balance`: a user's net balance with debit and credit lists. -/
structure Balance where
  Balance : ℚ
  Debit : List Debt
  Credit : List Debt
deriving DecidableEq

/-- Association-list lookup, the model of reading a Go map (`m[k]` together
with the `ok` flag). -/
def alookup {α : Type} : List (Int × α) → Int → Option α
  | [], _ => none
  | (k, v) :: rest, k' => if k = k' then some v else alookup rest k'

/-- Association-list overwrite, the model of a Go map assignment `m[k] = v`. -/
def aset {α : Type} : List (Int × α) → Int → α → List (Int × α)
  | [], k, v => [(k, v)]
  | (k', v') :: rest, k, v =>
    if k' = k then (k', v) :: rest else (k', v') :: aset rest k v

/-- Adds `q` to the entry of `k` in an amount map, inserting the key when
absent: the model of Go's `m[k] += q` (a missing key reads as `0`). -/
def addAmt : List (Int × ℚ) → Int → ℚ → List (Int × ℚ)
  | [], k, q => [(k, q)]
  | (k', v) :: rest, k, q =>
    if k' = k then (k', v + q) :: rest else (k', v) :: addAmt rest k q

/-- The model of the Go `debts map[int]map[int]float64` double map. -/
abbrev Debts := List (Int × List (Int × ℚ))

/-- `debts[a][b] += q` with on-demand allocation, as in `CalculateBalance`. -/
def addDebt : Debts → Int → Int → ℚ → Debts
  | [], a, b, q => [(a, [(b, q)])]
  | (a', m) :: rest, a, b, q =>
    if a' = a then (a', addAmt m b q) :: rest
    else (a', m) :: addDebt rest a b q

/-- The inner loop of `CalculateBalance` over `expense.Users`: skip the owner,
otherwise `debts[uid][owner] += share` and `debts[owner][uid] -= share`. -/
def amendDebts (debts : Debts) (ownerID : Int) (share : ℚ) : List Int → Debts
  | [] => debts
  | uid :: rest =>
    if uid = ownerID then amendDebts debts ownerID share rest
    else amendDebts (addDebt (addDebt debts uid ownerID share) ownerID uid (-share))
      ownerID share rest

/-- One iteration of the expense loop of `ledger.CalculateBalance`: if the
subject took part (membership in `Users`, as the Go flag loop computes), add
the subject's delta to the running balance and amend the debts map. -/
def calcStep (userID : Int) (st : ℚ × Debts) (e : Expense) : ℚ × Debts :=
  if userID ∈ e.Users then
    let perPersonAmount : ℚ := e.Amount / (e.Users.length : ℚ)
    let delta : ℚ :=
      if e.OwnerID = userID then ((e.Users.length : ℚ) - 1) * perPersonAmount
      else -perPersonAmount
    (st.1 + delta, amendDebts st.2 e.OwnerID perPersonAmount e.Users)
  else st

/-- The final split of `debts[userID]` into debit (positive) and credit
(negated non-positive) entries, in iteration order. -/
def splitDebts : List (Int × ℚ) → List Debt × List Debt
  | [] => ([], [])
  | (uid, amount) :: rest =>
    let dc := splitDebts rest
    if 0 < amount then (⟨uid, amount⟩ :: dc.1, dc.2)
    else (dc.1, ⟨uid, -amount⟩ :: dc.2)

/-- Embeds `ledger.CalculateBalance`: fold the expense list through
`calcStep`, read the subject's row of the debts map (a missing row reads as
the empty map) and split it into debit and credit lists. -/
def CalculateBalance (expenses : List Expense) (userID : Int) : Balance :=
  let st := expenses.foldl (calcStep userID) (0, [])
  let dc := splitDebts ((alookup st.2 userID).getD [])
  { Balance := st.1, Debit := dc.1, Credit := dc.2 }

/-- The subject's debts-map row after the expense fold, i.e. the
`userDebts := debts[userID]` value read by `CalculateBalance`. -/
def finalUserDebts (expenses : List Expense) (userID : Int) : List (Int × ℚ) :=
  (alookup (expenses.foldl (calcStep userID) (0, [])).2 userID).getD []

/-! ## Analysis definitions for the debts map -/

/-- The row of a debts double map for user `u` (a missing row is empty,
matching Go's nil inner map). -/
def rowOf (d : Debts) (u : Int) : List (Int × ℚ) := (alookup d u).getD []

/-- The amount stored for key `v` in an amount map (missing reads as 0,
matching Go's map default). -/
def rowVal (m : List (Int × ℚ)) (v : Int) : ℚ := (alookup m v).getD 0

/-- The keys of an amount map. -/
def keysOf (m : List (Int × ℚ)) : List Int := m.map Prod.fst

/-- The debts-map action of one expense on the fold state, given that the
balance component is ignored. -/
def stepDebts (userID : Int) (d : Debts) (e : Expense) : Debts :=
  if userID ∈ e.Users then
    amendDebts d e.OwnerID (e.Amount / (e.Users.length : ℚ)) e.Users
  else d

/-- The change one expense makes to the subject's running balance in
`CalculateBalance` (0 when the subject is not in `Users`). -/
def delta (e : Expense) (userID : Int) : ℚ :=
  if userID ∈ e.Users then
    (if e.OwnerID = userID then
      ((e.Users.length : ℚ) - 1) * (e.Amount / (e.Users.length : ℚ))
    else -(e.Amount / (e.Users.length : ℚ)))
  else 0

/-- The change the inner loop `amendDebts o s users` makes to the single cell
`debts[u][v]`. -/
def pairContrib (o : Int) (s : ℚ) (u v : Int) : List Int → ℚ
  | [] => 0
  | uid :: rest =>
    (if uid = o then 0
     else (if uid = u ∧ o = v then s else 0) + (if o = u ∧ uid = v then -s else 0)) +
    pairContrib o s u v rest

/-- The change the inner loop `amendDebts o s users` makes to the total of row
`debts[u]`. -/
def rowContrib (o : Int) (s : ℚ) (u : Int) : List Int → ℚ
  | [] => 0
  | uid :: rest =>
    (if uid = o then 0 else (if uid = u then s else 0) + (if o = u then -s else 0)) +
    rowContrib o s u rest

/-- Whether the inner loop `amendDebts o _ users` writes to cell
`debts[u][v]` at all. -/
def eTouch (o : Int) (users : List Int) (u v : Int) : Prop :=
  (v = o ∧ u ≠ o ∧ u ∈ users) ∨ (u = o ∧ v ≠ o ∧ v ∈ users)

/-- The change one expense makes to the cell `debts[u][v]`. -/
def expContrib (e : Expense) (u v : Int) : ℚ :=
  if u ∈ e.Users then pairContrib e.OwnerID (e.Amount / (e.Users.length : ℚ)) u v e.Users
  else 0

/-- The accumulated net amount in cell `debts[u][v]` after processing a whole
expense list. -/
def netList (es : List Expense) (u v : Int) : ℚ :=
  (es.map (fun e => expContrib e u v)).sum

/-- Whether an expense writes the cell `debts[u][v]`. -/
def touched (e : Expense) (u v : Int) : Prop :=
  u ∈ e.Users ∧ eTouch e.OwnerID e.Users u v

/-- The change one expense makes to the total of row `debts[u]`. -/
def rowContribE (e : Expense) (u : Int) : ℚ :=
  if u ∈ e.Users then rowContrib e.OwnerID (e.Amount / (e.Users.length : ℚ)) u e.Users
  else 0

/-- The total of the amounts in a debt list. -/
def sumAmounts (l : List Debt) : ℚ := (l.map Debt.Amount).sum

/-- First-match lookup of a counterparty in a debt list, for per-counterparty
comparison of debit/credit lists (the comparison the ledger tests use). -/
def debtLookup : List Debt → Int → Option ℚ
  | [], _ => none
  | d :: rest, uid => if d.UserID = uid then some d.Amount else debtLookup rest uid

/-- Two debt lists agree per counterparty. -/
def debtsMatch (a b : List Debt) : Prop := ∀ v : Int, debtLookup a v = debtLookup b v

/-- Every user that participates in some expense of the list. -/
def participants (expenses : List Expense) : Finset Int :=
  expenses.foldr (fun e s => e.Users.toFinset ∪ s) ∅

/-! ## Expense store (`database.InMemoryHandle`) -/

/-- Embeds `InMemoryHandle.CreateExpense`: the owner is appended to the user
slice, the expense gets id `len+1` and is appended to the store. -/
def CreateExpense (db : List Expense) (e : Expense) : List Expense :=
  db ++ [{ e with Users := e.Users ++ [e.OwnerID], ExpenseID := (db.length : Int) + 1 }]

/-- Embeds `InMemoryHandle.GetExpenses`: returns the whole expense list,
ignoring `userID` (`PgHandle.GetExpenses` likewise queries without a user
filter). -/
def GetExpenses (db : List Expense) (userID : Int) : List Expense := db

/-! ## Caches (`cache.InMemoryCache` and `cache.RedisCache`) -/

namespace InMemoryCache

/-- Embeds `InMemoryCache.SetBalance`: plain map write. -/
def SetBalance (c : List (Int × Balance)) (balance : Balance) (userID : Int) :
    List (Int × Balance) :=
  aset c userID balance

/-- Embeds `InMemoryCache.GetBalance`: plain map read; a missing key yields
Go's zero `Balance` and the database argument is ignored. -/
def GetBalance (c : List (Int × Balance)) (db : List Expense) (userID : Int) : Balance :=
  (alookup c userID).getD ⟨0, [], []⟩

end InMemoryCache

namespace RedisCache

/-- Embeds `RedisCache.SetBalance`: key/value write (the JSON encoding and the
TTL are elided; entries round-trip exactly and the model is time-free). -/
def SetBalance (c : List (Int × Balance)) (balance : Balance) (userID : Int) :
    List (Int × Balance) :=
  aset c userID balance

/-- Embeds `RedisCache.GetBalance`: on a missing key, read the expenses from
the database, run the ledger, write the result to the cache and return it;
on a hit return the stored value. -/
def GetBalance (c : List (Int × Balance)) (db : List Expense) (userID : Int) :
    Balance × List (Int × Balance) :=
  match alookup c userID with
  | none =>
    let expenses := GetExpenses db userID
    let balance := CalculateBalance expenses userID
    (balance, SetBalance c balance userID)
  | some balance => (balance, c)

end RedisCache

/-! ## API handler (`api.postExpenses`) -/

/-- Embeds `api.createExpenseRequest` after JSON decoding; `CreatedAt` holds
the result of `time.Parse` (`none` when the timestamp is unparsable) and
`Users` the ids extracted from the decoded user list. -/
structure CreateExpenseRequest where
  Description : String
  Amount : ℚ
  CreatedAt : Option Int
  Users : List Int
deriving DecidableEq

/-- The combined database and cache state seen by the API. -/
structure ApiState where
  db : List Expense
  cache : List (Int × Balance)
deriving DecidableEq

/-- The self/duplicate scan of `postExpenses` over the request's user list
(`seen` models the `uniqueUsers` map): `true` means the list contains the
submitter or a duplicate. -/
def checkUsers : List Int → Int → List Int → Bool
  | [], _, _ => false
  | u :: rest, self, seen =>
    if u = self then true
    else if u ∈ seen then true
    else checkUsers rest self (u :: seen)

/-- Embeds `api.postExpenses` for a decoded request: the validation chain in
source order, then `CreateExpense`, recompute via `GetExpenses`, and the
write-through `SetBalance` for the submitter.  Returns the HTTP status code
and the new state. -/
def postExpenses (req : CreateExpenseRequest) (userID : Int) (s : ApiState) :
    Nat × ApiState :=
  if req.Description = "" then (400, s)
  else if req.Amount ≤ 0 then (400, s)
  else
    match req.CreatedAt with
    | none => (400, s)
    | some createdAt =>
      if req.Users.length < 1 then (400, s)
      else if checkUsers req.Users userID [] then (400, s)
      else
        let expense : Expense :=
          { ExpenseID := 0, OwnerID := userID, Users := req.Users,
            Amount := req.Amount, Description := req.Description,
            CreatedAt := createdAt }
        let db := CreateExpense s.db expense
        let balance := CalculateBalance (GetExpenses db userID) userID
        (201, { db := db, cache := aset s.cache userID balance })

/-- The request passes every validation check of `postExpenses`. -/
def validReq (req : CreateExpenseRequest) (userID : Int) : Prop :=
  req.Description ≠ "" ∧ 0 < req.Amount ∧ req.CreatedAt ≠ none ∧
    req.Users ≠ [] ∧ userID ∉ req.Users ∧ req.Users.Nodup

/-- The expense record `postExpenses` builds from a decoded request before
handing it to the store (`t` is the parsed timestamp). -/
def newExpense (req : CreateExpenseRequest) (userID : Int) (t : Int) : Expense :=
  { ExpenseID := 0, OwnerID := userID, Users := req.Users, Amount := req.Amount,
    Description := req.Description, CreatedAt := t }

/-- A request that passes every validation check, submitted by user 1. -/
def validRequest : CreateExpenseRequest :=
  { Description := "Food", Amount := 42, CreatedAt := some 0, Users := [2, 3] }

/-- A request with a non-positive amount. -/
def invalidRequest : CreateExpenseRequest :=
  { Description := "Food", Amount := -1, CreatedAt := some 0, Users := [2, 3] }

/-- The empty database/cache state. -/
def emptyState : ApiState := { db := [], cache := [] }

/-! ## Concrete scenario data -/

/-- The meal expense of the test scenario: user 1 pays 42 for users 1,2,3. -/
def meal : Expense :=
  { ExpenseID := 1, OwnerID := 1, Users := [1, 2, 3], Amount := 42,
    Description := "Food", CreatedAt := 0 }

/-- The coffee expense of the test scenario: user 2 pays 8 for users 1,2. -/
def coffee : Expense :=
  { ExpenseID := 1, OwnerID := 2, Users := [1, 2], Amount := 8,
    Description := "Coffee", CreatedAt := 0 }

/-- An expense whose user slice contains a duplicate non-owner. -/
def dupExpense : Expense :=
  { ExpenseID := 1, OwnerID := 1, Users := [1, 2, 2], Amount := 3,
    Description := "Dup", CreatedAt := 0 }

/-- First of two mutually cancelling expenses: user 1 pays 4 for users 1,2. -/
def evenA : Expense :=
  { ExpenseID := 1, OwnerID := 1, Users := [1, 2], Amount := 4,
    Description := "EvenA", CreatedAt := 0 }

/-- Second of two mutually cancelling expenses: user 2 pays 4 for users 1,2. -/
def evenB : Expense :=
  { ExpenseID := 2, OwnerID := 2, Users := [1, 2], Amount := 4,
    Description := "EvenB", CreatedAt := 0 }

/-! ## Association-list lemmas -/

theorem alookup_aset_self {α : Type} (c : List (Int × α)) (u : Int) (b : α) :
    alookup (aset c u b) u = some b := by
  induction c with
  | nil => simp [aset, alookup]
  | cons p rest ih =>
    obtain ⟨k, v⟩ := p
    by_cases h : k = u
    · simp [aset, alookup, h]
    · simp [aset, alookup, h, ih]

theorem alookup_aset_ne {α : Type} (c : List (Int × α)) (u v : Int) (b : α) (h : v ≠ u) :
    alookup (aset c u b) v = alookup c v := by
  have h' : ¬u = v := fun hh => h hh.symm
  induction c with
  | nil => simp [aset, alookup, h']
  | cons p rest ih =>
    obtain ⟨k, w⟩ := p
    by_cases hk : k = u
    · subst hk
      simp [aset, alookup, h']
    · simp [aset, hk, alookup, ih]

theorem alookup_addAmt (m : List (Int × ℚ)) (k : Int) (q : ℚ) (v : Int) :
    alookup (addAmt m k q) v =
      if k = v then some (rowVal m k + q) else alookup m v := by
  induction m with
  | nil =>
    by_cases h : k = v <;> simp [addAmt, alookup, rowVal, h]
  | cons p rest ih =>
    obtain ⟨k', w⟩ := p
    by_cases hk : k' = k
    · subst hk
      by_cases hv : k' = v <;> simp [addAmt, alookup, rowVal, hv]
    · by_cases hv : k' = v
      · subst hv
        have hkv : ¬k = k' := fun hh => hk hh.symm
        simp [addAmt, hk, alookup, rowVal, hkv]
      · simp [addAmt, hk, alookup, rowVal, hv, ih]

theorem rowVal_addAmt (m : List (Int × ℚ)) (k : Int) (q : ℚ) (v : Int) :
    rowVal (addAmt m k q) v = rowVal m v + if k = v then q else 0 := by
  by_cases h : k = v
  · subst h
    simp [rowVal, alookup_addAmt]
  · simp [rowVal, alookup_addAmt, h]

theorem mem_keysOf_addAmt (m : List (Int × ℚ)) (k : Int) (q : ℚ) (v : Int) :
    v ∈ keysOf (addAmt m k q) ↔ v ∈ keysOf m ∨ v = k := by
  induction m with
  | nil => simp [addAmt, keysOf]
  | cons p rest ih =>
    obtain ⟨k', w⟩ := p
    by_cases hk : k' = k
    · have hre : addAmt ((k', w) :: rest) k q = (k', w + q) :: rest := by
        simp [addAmt, hk]
      rw [hre]
      simp only [keysOf, List.map_cons, List.mem_cons]
      constructor
      · rintro (h | h)
        · exact Or.inl (Or.inl h)
        · exact Or.inl (Or.inr h)
      · rintro ((h | h) | h)
        · exact Or.inl h
        · exact Or.inr h
        · exact Or.inl (h.trans hk.symm)
    · simp only [addAmt, if_neg hk, keysOf, List.map_cons, List.mem_cons]
      simp only [keysOf] at ih
      rw [ih]
      tauto

theorem keysOf_addAmt_nodup (m : List (Int × ℚ)) (k : Int) (q : ℚ)
    (h : (keysOf m).Nodup) : (keysOf (addAmt m k q)).Nodup := by
  induction m with
  | nil => simp [addAmt, keysOf]
  | cons p rest ih =>
    obtain ⟨k', w⟩ := p
    simp only [keysOf, List.map_cons, List.nodup_cons] at h
    by_cases hk : k' = k
    · subst hk
      simpa [addAmt, keysOf, List.nodup_cons] using h
    · simp only [addAmt, if_neg hk, keysOf, List.map_cons, List.nodup_cons]
      refine ⟨?_, ih h.2⟩
      intro hmem
      rcases (mem_keysOf_addAmt rest k q k').1 hmem with hm | he
      · exact h.1 hm
      · exact hk he

theorem sum_addAmt (m : List (Int × ℚ)) (k : Int) (q : ℚ) :
    ((addAmt m k q).map Prod.snd).sum = (m.map Prod.snd).sum + q := by
  induction m with
  | nil => simp [addAmt]
  | cons p rest ih =>
    obtain ⟨k', w⟩ := p
    by_cases h : k' = k
    · subst h
      simp [addAmt]
      ring
    · simp [addAmt, if_neg h, ih]
      ring

theorem rowOf_addDebt (d : Debts) (a b : Int) (q : ℚ) (u : Int) :
    rowOf (addDebt d a b q) u =
      if a = u then addAmt (rowOf d a) b q else rowOf d u := by
  induction d with
  | nil =>
    by_cases h : a = u <;> simp [addDebt, rowOf, alookup, addAmt, h]
  | cons p rest ih =>
    obtain ⟨a', m⟩ := p
    by_cases h : a' = a
    · subst h
      by_cases hu : a' = u
      · subst hu
        simp [addDebt, rowOf, alookup]
      · simp [addDebt, rowOf, alookup, hu]
    · have h' : ¬a = a' := fun hh => h hh.symm
      by_cases hu : a' = u
      · subst hu
        have h2 : ¬a = a' := h'
        simp [addDebt, h, rowOf, alookup, h2]
      · simp only [addDebt, if_neg h, rowOf, alookup, if_neg hu]
        exact ih

/-! ## amendDebts lemmas -/

theorem rowVal_amendDebts (o : Int) (s : ℚ) (users : List Int) (u v : Int) :
    ∀ d : Debts, rowVal (rowOf (amendDebts d o s users) u) v
      = rowVal (rowOf d u) v + pairContrib o s u v users := by
  induction users with
  | nil => intro d; simp [amendDebts, pairContrib]
  | cons uid rest ih =>
    intro d
    simp only [amendDebts, pairContrib]
    by_cases ho : uid = o
    · rw [if_pos ho, if_pos ho, ih]
      ring
    · rw [if_neg ho, if_neg ho, ih]
      have key : rowVal (rowOf (addDebt (addDebt d uid o s) o uid (-s)) u) v
          = rowVal (rowOf d u) v +
            ((if uid = u ∧ o = v then s else 0) + (if o = u ∧ uid = v then -s else 0)) := by
        rw [rowOf_addDebt]
        by_cases hu : o = u
        · rw [if_pos hu, rowOf_addDebt, if_neg ho, rowVal_addAmt]
          have huid : ¬uid = u := by omega
          rw [if_neg (show ¬(uid = u ∧ o = v) from fun hh => huid hh.1)]
          rw [show rowOf d o = rowOf d u from by rw [hu]]
          by_cases hv2 : uid = v
          · rw [if_pos hv2, if_pos (show o = u ∧ uid = v from ⟨hu, hv2⟩)]
            ring
          · rw [if_neg hv2, if_neg (show ¬(o = u ∧ uid = v) from fun hh => hv2 hh.2)]
            ring
        · rw [if_neg hu, rowOf_addDebt]
          by_cases huid : uid = u
          · rw [if_pos huid, rowVal_addAmt]
            rw [if_neg (show ¬(o = u ∧ uid = v) from fun hh => hu hh.1)]
            rw [show rowOf d uid = rowOf d u from by rw [huid]]
            by_cases hv : o = v
            · rw [if_pos hv, if_pos (show uid = u ∧ o = v from ⟨huid, hv⟩)]
              ring
            · rw [if_neg hv, if_neg (show ¬(uid = u ∧ o = v) from fun hh => hv hh.2)]
              ring
          · rw [if_neg huid]
            rw [if_neg (show ¬(uid = u ∧ o = v) from fun hh => huid hh.1),
                if_neg (show ¬(o = u ∧ uid = v) from fun hh => hu hh.1)]
            ring
      rw [key]
      ring

theorem rowSum_amendDebts (o : Int) (s : ℚ) (users : List Int) (u : Int) :
    ∀ d : Debts, ((rowOf (amendDebts d o s users) u).map Prod.snd).sum
      = ((rowOf d u).map Prod.snd).sum + rowContrib o s u users := by
  induction users with
  | nil => intro d; simp [amendDebts, rowContrib]
  | cons uid rest ih =>
    intro d
    simp only [amendDebts, rowContrib]
    by_cases ho : uid = o
    · rw [if_pos ho, if_pos ho, ih]
      ring
    · rw [if_neg ho, if_neg ho, ih]
      have key : ((rowOf (addDebt (addDebt d uid o s) o uid (-s)) u).map Prod.snd).sum
          = ((rowOf d u).map Prod.snd).sum +
            ((if uid = u then s else 0) + (if o = u then -s else 0)) := by
        rw [rowOf_addDebt]
        by_cases hu : o = u
        · rw [if_pos hu, rowOf_addDebt, if_neg ho, sum_addAmt]
          have huid : ¬uid = u := by omega
          rw [if_neg huid, if_pos hu]
          rw [show rowOf d o = rowOf d u from by rw [hu]]
          ring
        · rw [if_neg hu, rowOf_addDebt]
          by_cases huid : uid = u
          · rw [if_pos huid, sum_addAmt, if_pos huid, if_neg hu]
            rw [show rowOf d uid = rowOf d u from by rw [huid]]
            ring
          · rw [if_neg huid, if_neg huid, if_neg hu]
            ring
      rw [key]
      ring

theorem mem_keys_amendDebts (o : Int) (s : ℚ) (users : List Int) (u v : Int) :
    ∀ d : Debts, v ∈ keysOf (rowOf (amendDebts d o s users) u)
      ↔ v ∈ keysOf (rowOf d u) ∨ eTouch o users u v := by
  induction users with
  | nil => intro d; simp [amendDebts, eTouch]
  | cons uid rest ih =>
    intro d
    simp only [amendDebts]
    by_cases ho : uid = o
    · rw [if_pos ho, ih]
      subst ho
      simp only [eTouch, List.mem_cons]
      constructor
      · rintro (h | h)
        · exact Or.inl h
        · rcases h with ⟨h1, h2, h3⟩ | ⟨h1, h2, h3⟩
          · exact Or.inr (Or.inl ⟨h1, h2, Or.inr h3⟩)
          · exact Or.inr (Or.inr ⟨h1, h2, Or.inr h3⟩)
      · rintro (h | h)
        · exact Or.inl h
        · rcases h with ⟨h1, h2, h3 | h3⟩ | ⟨h1, h2, h3 | h3⟩
          · exact absurd h3 h2
          · exact Or.inr (Or.inl ⟨h1, h2, h3⟩)
          · exact absurd h3 h2
          · exact Or.inr (Or.inr ⟨h1, h2, h3⟩)
    · rw [if_neg ho, ih]
      have key : v ∈ keysOf (rowOf (addDebt (addDebt d uid o s) o uid (-s)) u)
          ↔ v ∈ keysOf (rowOf d u) ∨ (u = uid ∧ v = o) ∨ (u = o ∧ v = uid) := by
        rw [rowOf_addDebt]
        by_cases hu : o = u
        · rw [if_pos hu, rowOf_addDebt, if_neg ho, mem_keysOf_addAmt]
          rw [show rowOf d o = rowOf d u from by rw [hu]]
          constructor
          · rintro (h | h)
            · exact Or.inl h
            · exact Or.inr (Or.inr ⟨hu.symm, h⟩)
          · rintro (h | ⟨h1, h2⟩ | ⟨h1, h2⟩)
            · exact Or.inl h
            · exact absurd (hu.trans h1).symm ho
            · exact Or.inr h2
        · rw [if_neg hu, rowOf_addDebt]
          by_cases huid : uid = u
          · rw [if_pos huid, mem_keysOf_addAmt]
            rw [show rowOf d uid = rowOf d u from by rw [huid]]
            constructor
            · rintro (h | h)
              · exact Or.inl h
              · exact Or.inr (Or.inl ⟨huid.symm, h⟩)
            · rintro (h | ⟨h1, h2⟩ | ⟨h1, h2⟩)
              · exact Or.inl h
              · exact Or.inr h2
              · exact absurd h1.symm hu
          · rw [if_neg huid]
            constructor
            · exact fun h => Or.inl h
            · rintro (h | ⟨h1, h2⟩ | ⟨h1, h2⟩)
              · exact h
              · exact absurd h1.symm huid
              · exact absurd h1.symm hu
      rw [key]
      simp only [eTouch, List.mem_cons]
      constructor
      · rintro ((h | ⟨h1, h2⟩ | ⟨h1, h2⟩) | h)
        · exact Or.inl h
        · exact Or.inr (Or.inl ⟨h2, fun hh => ho (h1.symm.trans hh), Or.inl h1⟩)
        · exact Or.inr (Or.inr ⟨h1, fun hh => ho (h2.symm.trans hh), Or.inl h2⟩)
        · rcases h with ⟨h1, h2, h3⟩ | ⟨h1, h2, h3⟩
          · exact Or.inr (Or.inl ⟨h1, h2, Or.inr h3⟩)
          · exact Or.inr (Or.inr ⟨h1, h2, Or.inr h3⟩)
      · rintro (h | h)
        · exact Or.inl (Or.inl h)
        · rcases h with ⟨h1, h2, h3 | h3⟩ | ⟨h1, h2, h3 | h3⟩
          · exact Or.inl (Or.inr (Or.inl ⟨h3, h1⟩))
          · exact Or.inr (Or.inl ⟨h1, h2, h3⟩)
          · exact Or.inl (Or.inr (Or.inr ⟨h1, h3⟩))
          · exact Or.inr (Or.inr ⟨h1, h2, h3⟩)

theorem keys_amendDebts_nodup (o : Int) (s : ℚ) (users : List Int) :
    ∀ d : Debts, (∀ w, (keysOf (rowOf d w)).Nodup) →
      ∀ w, (keysOf (rowOf (amendDebts d o s users) w)).Nodup := by
  induction users with
  | nil => intro d h; simpa [amendDebts] using h
  | cons uid rest ih =>
    intro d h
    simp only [amendDebts]
    by_cases ho : uid = o
    · rw [if_pos ho]
      exact ih d h
    · rw [if_neg ho]
      apply ih
      intro w
      rw [rowOf_addDebt]
      by_cases h1 : o = w
      · rw [if_pos h1]
        apply keysOf_addAmt_nodup
        rw [rowOf_addDebt, if_neg ho]
        exact h o
      · rw [if_neg h1, rowOf_addDebt]
        by_cases h2 : uid = w
        · rw [if_pos h2]
          apply keysOf_addAmt_nodup
          exact h uid
        · rw [if_neg h2]
          exact h w

/-! ## Fold lemmas for CalculateBalance -/

theorem calcStep_eq (userID : Int) (st : ℚ × Debts) (e : Expense) :
    calcStep userID st e = (st.1 + delta e userID, stepDebts userID st.2 e) := by
  by_cases h : userID ∈ e.Users <;> simp [calcStep, delta, stepDebts, h]

theorem foldl_calcStep_fst (es : List Expense) (userID : Int) :
    ∀ st : ℚ × Debts, (es.foldl (calcStep userID) st).1
      = st.1 + (es.map (fun e => delta e userID)).sum := by
  induction es with
  | nil => intro st; simp
  | cons e rest ih =>
    intro st
    rw [List.foldl_cons, calcStep_eq, ih]
    simp only [List.map_cons, List.sum_cons]
    ring

theorem foldl_calcStep_snd (es : List Expense) (userID : Int) :
    ∀ st : ℚ × Debts, (es.foldl (calcStep userID) st).2
      = es.foldl (stepDebts userID) st.2 := by
  induction es with
  | nil => intro st; simp
  | cons e rest ih =>
    intro st
    simp only [List.foldl_cons, calcStep_eq]
    exact ih _

theorem rowVal_foldl_stepDebts (es : List Expense) (u v : Int) :
    ∀ d : Debts, rowVal (rowOf (es.foldl (stepDebts u) d) u) v
      = rowVal (rowOf d u) v + netList es u v := by
  induction es with
  | nil => intro d; simp [netList]
  | cons e rest ih =>
    intro d
    rw [List.foldl_cons, ih]
    have hstep : rowVal (rowOf (stepDebts u d e) u) v
        = rowVal (rowOf d u) v + expContrib e u v := by
      by_cases h : u ∈ e.Users
      · simp [stepDebts, expContrib, h, rowVal_amendDebts]
      · simp [stepDebts, expContrib, h]
    rw [hstep]
    simp only [netList, List.map_cons, List.sum_cons]
    ring

theorem rowSum_foldl_stepDebts (es : List Expense) (u : Int) :
    ∀ d : Debts, ((rowOf (es.foldl (stepDebts u) d) u).map Prod.snd).sum
      = ((rowOf d u).map Prod.snd).sum + (es.map (fun e => rowContribE e u)).sum := by
  induction es with
  | nil => intro d; simp
  | cons e rest ih =>
    intro d
    rw [List.foldl_cons, ih]
    have hstep : ((rowOf (stepDebts u d e) u).map Prod.snd).sum
        = ((rowOf d u).map Prod.snd).sum + rowContribE e u := by
      by_cases h : u ∈ e.Users
      · simp [stepDebts, rowContribE, h, rowSum_amendDebts]
      · simp [stepDebts, rowContribE, h]
    rw [hstep]
    simp only [List.map_cons, List.sum_cons]
    ring

theorem mem_keys_foldl_stepDebts (es : List Expense) (u v : Int) :
    ∀ d : Debts, v ∈ keysOf (rowOf (es.foldl (stepDebts u) d) u)
      ↔ v ∈ keysOf (rowOf d u) ∨ ∃ e ∈ es, touched e u v := by
  induction es with
  | nil => intro d; simp
  | cons e rest ih =>
    intro d
    rw [List.foldl_cons, ih]
    have hstep : v ∈ keysOf (rowOf (stepDebts u d e) u)
        ↔ v ∈ keysOf (rowOf d u) ∨ touched e u v := by
      by_cases h : u ∈ e.Users
      · simp [stepDebts, touched, h, mem_keys_amendDebts]
      · simp [stepDebts, touched, h]
    rw [hstep]
    constructor
    · rintro ((h | h) | h)
      · exact Or.inl h
      · exact Or.inr ⟨e, List.mem_cons_self e rest, h⟩
      · obtain ⟨e', he', ht⟩ := h
        exact Or.inr ⟨e', List.mem_cons_of_mem e he', ht⟩
    · rintro (h | h)
      · exact Or.inl (Or.inl h)
      · obtain ⟨e', he', ht⟩ := h
        rcases List.mem_cons.1 he' with rfl | hm
        · exact Or.inl (Or.inr ht)
        · exact Or.inr ⟨e', hm, ht⟩

theorem keys_nodup_foldl_stepDebts (es : List Expense) (u : Int) :
    ∀ d : Debts, (∀ w, (keysOf (rowOf d w)).Nodup) →
      ∀ w, (keysOf (rowOf (es.foldl (stepDebts u) d) w)).Nodup := by
  induction es with
  | nil => intro d h; simpa using h
  | cons e rest ih =>
    intro d h
    rw [List.foldl_cons]
    apply ih
    intro w
    by_cases hm : u ∈ e.Users
    · simp only [stepDebts, if_pos hm]
      exact keys_amendDebts_nodup e.OwnerID (e.Amount / (e.Users.length : ℚ)) e.Users d h w
    · simpa [stepDebts, hm] using h w

/-! ## Bridging CalculateBalance to the fold lemmas -/

theorem CalculateBalance_BalanceField (es : List Expense) (u : Int) :
    (CalculateBalance es u).Balance = (es.map (fun e => delta e u)).sum := by
  simp [CalculateBalance, foldl_calcStep_fst]

theorem CalculateBalance_Debit (es : List Expense) (u : Int) :
    (CalculateBalance es u).Debit = (splitDebts (finalUserDebts es u)).1 := rfl

theorem CalculateBalance_Credit (es : List Expense) (u : Int) :
    (CalculateBalance es u).Credit = (splitDebts (finalUserDebts es u)).2 := rfl

theorem finalUserDebts_eq (es : List Expense) (u : Int) :
    finalUserDebts es u = rowOf (es.foldl (stepDebts u) []) u := by
  simp [finalUserDebts, rowOf, foldl_calcStep_snd]

theorem rowVal_finalUserDebts (es : List Expense) (u v : Int) :
    rowVal (finalUserDebts es u) v = netList es u v := by
  rw [finalUserDebts_eq, rowVal_foldl_stepDebts]
  simp [rowOf, rowVal, alookup]

theorem mem_keys_finalUserDebts (es : List Expense) (u v : Int) :
    v ∈ keysOf (finalUserDebts es u) ↔ ∃ e ∈ es, touched e u v := by
  rw [finalUserDebts_eq, mem_keys_foldl_stepDebts]
  simp [rowOf, keysOf, alookup]

theorem keys_finalUserDebts_nodup (es : List Expense) (u : Int) :
    (keysOf (finalUserDebts es u)).Nodup := by
  rw [finalUserDebts_eq]
  exact keys_nodup_foldl_stepDebts es u []
    (fun w => by simp [rowOf, keysOf, alookup]) u

/-! ## Association-list membership -/

theorem alookup_eq_some_of_mem (m : List (Int × ℚ)) (h : (keysOf m).Nodup)
    (p : Int × ℚ) (hp : p ∈ m) : alookup m p.1 = some p.2 := by
  induction m with
  | nil => cases hp
  | cons q rest ih =>
    obtain ⟨k, w⟩ := q
    simp only [keysOf, List.map_cons, List.nodup_cons] at h
    rcases List.mem_cons.1 hp with rfl | hm
    · simp [alookup]
    · have hk : ¬k = p.1 := by
        intro hh
        exact h.1 (hh ▸ List.mem_map_of_mem Prod.fst hm)
      simp only [alookup, if_neg hk]
      exact ih h.2 hm

theorem mem_of_alookup_eq_some (m : List (Int × ℚ)) (p : Int × ℚ)
    (h : alookup m p.1 = some p.2) : p ∈ m := by
  induction m with
  | nil => simp [alookup] at h
  | cons q rest ih =>
    obtain ⟨k, w⟩ := q
    by_cases hk : k = p.1
    · simp only [alookup, if_pos hk] at h
      obtain rfl := Option.some.inj h
      have hp : p = (k, p.2) := by rw [hk]
      rw [hp]
      exact List.mem_cons_self _ _
    · simp only [alookup, if_neg hk] at h
      exact List.mem_cons_of_mem _ (ih h)

theorem alookup_isSome_iff (m : List (Int × ℚ)) (v : Int) :
    (alookup m v).isSome ↔ v ∈ keysOf m := by
  induction m with
  | nil => simp [alookup, keysOf]
  | cons q rest ih =>
    obtain ⟨k, w⟩ := q
    by_cases hk : k = v
    · simp [alookup, keysOf, hk]
    · have : ¬v = k := fun hh => hk hh.symm
      simp [alookup, keysOf, hk, this, ih]

theorem mem_alist_iff (m : List (Int × ℚ)) (h : (keysOf m).Nodup) (p : Int × ℚ) :
    p ∈ m ↔ p.1 ∈ keysOf m ∧ p.2 = rowVal m p.1 := by
  constructor
  · intro hp
    have hs := alookup_eq_some_of_mem m h p hp
    refine ⟨(alookup_isSome_iff m p.1).1 (by simp [hs]), ?_⟩
    simp [rowVal, hs]
  · rintro ⟨h1, h2⟩
    obtain ⟨a, ha⟩ := Option.isSome_iff_exists.1 ((alookup_isSome_iff m p.1).2 h1)
    have : rowVal m p.1 = a := by simp [rowVal, ha]
    apply mem_of_alookup_eq_some
    rw [ha, h2, this]

/-! ## splitDebts lemmas -/

theorem mem_splitDebts_fst : ∀ (m : List (Int × ℚ)) (x : Debt),
    x ∈ (splitDebts m).1 ↔ ∃ p ∈ m, 0 < p.2 ∧ x = ⟨p.1, p.2⟩
  | [], x => by simp [splitDebts]
  | (uid, amount) :: rest, x => by
    by_cases h : 0 < amount
    · simp only [splitDebts, if_pos h]
      constructor
      · intro h1
        rcases List.mem_cons.1 h1 with h1 | h1
        · exact ⟨(uid, amount), List.mem_cons_self _ _, h, h1⟩
        · obtain ⟨p, hp, h2, h3⟩ := (mem_splitDebts_fst rest x).1 h1
          exact ⟨p, List.mem_cons_of_mem _ hp, h2, h3⟩
      · rintro ⟨p, hp, h2, h3⟩
        rcases List.mem_cons.1 hp with rfl | hm
        · exact List.mem_cons.2 (Or.inl h3)
        · exact List.mem_cons.2 (Or.inr ((mem_splitDebts_fst rest x).2 ⟨p, hm, h2, h3⟩))
    · simp only [splitDebts, if_neg h]
      rw [mem_splitDebts_fst rest x]
      constructor
      · rintro ⟨p, hp, h2, h3⟩
        exact ⟨p, List.mem_cons_of_mem _ hp, h2, h3⟩
      · rintro ⟨p, hp, h2, h3⟩
        rcases List.mem_cons.1 hp with rfl | hm
        · exact absurd h2 h
        · exact ⟨p, hm, h2, h3⟩

theorem mem_splitDebts_snd : ∀ (m : List (Int × ℚ)) (x : Debt),
    x ∈ (splitDebts m).2 ↔ ∃ p ∈ m, ¬0 < p.2 ∧ x = ⟨p.1, -p.2⟩
  | [], x => by simp [splitDebts]
  | (uid, amount) :: rest, x => by
    by_cases h : 0 < amount
    · simp only [splitDebts, if_pos h]
      rw [mem_splitDebts_snd rest x]
      constructor
      · rintro ⟨p, hp, h2, h3⟩
        exact ⟨p, List.mem_cons_of_mem _ hp, h2, h3⟩
      · rintro ⟨p, hp, h2, h3⟩
        rcases List.mem_cons.1 hp with rfl | hm
        · exact absurd h h2
        · exact ⟨p, hm, h2, h3⟩
    · simp only [splitDebts, if_neg h]
      constructor
      · intro h1
        rcases List.mem_cons.1 h1 with h1 | h1
        · exact ⟨(uid, amount), List.mem_cons_self _ _, h, h1⟩
        · obtain ⟨p, hp, h2, h3⟩ := (mem_splitDebts_snd rest x).1 h1
          exact ⟨p, List.mem_cons_of_mem _ hp, h2, h3⟩
      · rintro ⟨p, hp, h2, h3⟩
        rcases List.mem_cons.1 hp with rfl | hm
        · exact List.mem_cons.2 (Or.inl h3)
        · exact List.mem_cons.2 (Or.inr ((mem_splitDebts_snd rest x).2 ⟨p, hm, h2, h3⟩))

theorem splitDebts_fst_keys_sublist : ∀ m : List (Int × ℚ),
    ((splitDebts m).1.map Debt.UserID).Sublist (keysOf m)
  | [] => by simp [splitDebts, keysOf]
  | (uid, amount) :: rest => by
    by_cases h : 0 < amount
    · simp only [splitDebts, if_pos h, keysOf, List.map_cons]
      exact (splitDebts_fst_keys_sublist rest).cons₂ uid
    · simp only [splitDebts, if_neg h, keysOf, List.map_cons]
      exact (splitDebts_fst_keys_sublist rest).cons uid

theorem splitDebts_snd_keys_sublist : ∀ m : List (Int × ℚ),
    ((splitDebts m).2.map Debt.UserID).Sublist (keysOf m)
  | [] => by simp [splitDebts, keysOf]
  | (uid, amount) :: rest => by
    by_cases h : 0 < amount
    · simp only [splitDebts, if_pos h, keysOf, List.map_cons]
      exact (splitDebts_snd_keys_sublist rest).cons uid
    · simp only [splitDebts, if_neg h, keysOf, List.map_cons]
      exact (splitDebts_snd_keys_sublist rest).cons₂ uid

theorem splitDebts_sum : ∀ m : List (Int × ℚ),
    sumAmounts (splitDebts m).2 - sumAmounts (splitDebts m).1 = -((m.map Prod.snd).sum)
  | [] => by simp [splitDebts, sumAmounts]
  | (uid, amount) :: rest => by
    have ih := splitDebts_sum rest
    by_cases h : 0 < amount
    · simp only [sumAmounts] at ih
      simp only [splitDebts, if_pos h, sumAmounts, List.map_cons, List.sum_cons]
      linarith
    · simp only [sumAmounts] at ih
      simp only [splitDebts, if_neg h, sumAmounts, List.map_cons, List.sum_cons]
      linarith

/-! ## Membership characterization of debit and credit -/

theorem mem_Debit_iff (es : List Expense) (u : Int) (x : Debt) :
    x ∈ (CalculateBalance es u).Debit ↔
      (∃ e ∈ es, touched e u x.UserID) ∧
        x.Amount = netList es u x.UserID ∧ 0 < x.Amount := by
  rw [CalculateBalance_Debit, mem_splitDebts_fst]
  constructor
  · rintro ⟨p, hp, hpos, rfl⟩
    have hmem := (mem_alist_iff _ (keys_finalUserDebts_nodup es u) p).1 hp
    exact ⟨(mem_keys_finalUserDebts es u p.1).1 hmem.1,
      by rw [← rowVal_finalUserDebts]; exact hmem.2, hpos⟩
  · rintro ⟨htouch, hamt, hpos⟩
    refine ⟨(x.UserID, x.Amount), ?_, hpos, rfl⟩
    apply (mem_alist_iff _ (keys_finalUserDebts_nodup es u) _).2
    exact ⟨(mem_keys_finalUserDebts es u x.UserID).2 htouch,
      by rw [rowVal_finalUserDebts]; exact hamt⟩

theorem mem_Credit_iff (es : List Expense) (u : Int) (x : Debt) :
    x ∈ (CalculateBalance es u).Credit ↔
      (∃ e ∈ es, touched e u x.UserID) ∧
        netList es u x.UserID = -x.Amount ∧ ¬0 < netList es u x.UserID := by
  rw [CalculateBalance_Credit, mem_splitDebts_snd]
  constructor
  · rintro ⟨p, hp, hpos, rfl⟩
    have hmem := (mem_alist_iff _ (keys_finalUserDebts_nodup es u) p).1 hp
    have hval : netList es u p.1 = p.2 := by
      rw [← rowVal_finalUserDebts]; exact hmem.2.symm
    refine ⟨(mem_keys_finalUserDebts es u p.1).1 hmem.1, ?_, ?_⟩
    · simp [hval]
    · rw [hval]; exact hpos
  · rintro ⟨htouch, hamt, hpos⟩
    refine ⟨(x.UserID, -x.Amount), ?_, ?_, ?_⟩
    · apply (mem_alist_iff _ (keys_finalUserDebts_nodup es u) _).2
      exact ⟨(mem_keys_finalUserDebts es u x.UserID).2 htouch,
        by rw [rowVal_finalUserDebts]; exact hamt.symm⟩
    · rw [← hamt]; exact hpos
    · simp

/-! ## Evaluating the row contribution of a single expense -/

theorem rowContrib_self (o : Int) (s : ℚ) (users : List Int) :
    rowContrib o s o users = -s * ((users.length : ℚ) - ((users.count o : ℕ) : ℚ)) := by
  induction users with
  | nil => simp [rowContrib]
  | cons uid rest ih =>
    rw [rowContrib]
    by_cases h : uid = o
    · have hbr : (if uid = o then (0:ℚ)
          else (if uid = o then s else 0) + (if o = o then -s else 0)) = 0 := by
        simp [h]
      have hc : (uid :: rest).count o = rest.count o + 1 := by
        subst h
        simp [List.count_cons]
      rw [hbr, ih, hc, List.length_cons]
      push_cast
      ring
    · have hbr : (if uid = o then (0:ℚ)
          else (if uid = o then s else 0) + (if o = o then -s else 0)) = -s := by
        simp [h]
      have hc : (uid :: rest).count o = rest.count o := by
        simp [List.count_cons, h, fun hh : o = uid => h hh.symm]
      rw [hbr, ih, hc, List.length_cons]
      push_cast
      ring

theorem rowContrib_other (o : Int) (s : ℚ) (u : Int) (users : List Int) (h : ¬u = o) :
    rowContrib o s u users = s * ((users.count u : ℕ) : ℚ) := by
  induction users with
  | nil => simp [rowContrib]
  | cons uid rest ih =>
    rw [rowContrib]
    have ho : ¬o = u := fun hh => h hh.symm
    by_cases huid : uid = o
    · have hbr : (if uid = o then (0:ℚ)
          else (if uid = u then s else 0) + (if o = u then -s else 0)) = 0 := by
        simp [huid]
      have hc : (uid :: rest).count u = rest.count u := by
        have h2 : ¬u = uid := fun hh => h (hh.trans huid)
        have h3 : ¬uid = u := fun hh => h2 hh.symm
        simp [List.count_cons, h2, h3]
      rw [hbr, ih, hc]
      ring
    · by_cases hu : uid = u
      · have hbr : (if uid = o then (0:ℚ)
            else (if uid = u then s else 0) + (if o = u then -s else 0)) = s := by
          simp [huid, hu, ho, h]
        have hc : (uid :: rest).count u = rest.count u + 1 := by
          subst hu
          simp [List.count_cons]
        rw [hbr, ih, hc]
        push_cast
        ring
      · have hbr : (if uid = o then (0:ℚ)
            else (if uid = u then s else 0) + (if o = u then -s else 0)) = 0 := by
          simp [huid, hu, ho]
        have hc : (uid :: rest).count u = rest.count u := by
          simp [List.count_cons, hu, fun hh : u = uid => hu hh.symm]
        rw [hbr, ih, hc]
        ring

theorem rowContribE_eq_neg_delta (e : Expense) (u : Int)
    (hmem : e.OwnerID ∈ e.Users) (hnd : e.Users.Nodup) :
    rowContribE e u = -(delta e u) := by
  by_cases h : u ∈ e.Users
  · rw [rowContribE, if_pos h, delta, if_pos h]
    by_cases ho : e.OwnerID = u
    · rw [if_pos ho, ← ho, rowContrib_self]
      rw [List.count_eq_one_of_mem hnd hmem]
      push_cast
      ring
    · rw [if_neg ho]
      have h2 : ¬u = e.OwnerID := fun hh => ho hh.symm
      rw [rowContrib_other _ _ _ _ h2]
      rw [List.count_eq_one_of_mem hnd h]
      push_cast
      ring
  · rw [rowContribE, if_neg h, delta, if_neg h]
    simp

theorem sum_map_neg_delta (l : List Expense) (f : Expense → ℚ) :
    (l.map (fun e => -(f e))).sum = -((l.map f).sum) := by
  induction l with
  | nil => simp
  | cons e rest ih =>
    simp [ih]
    ring

/-! ## Participants and the per-expense zero sum -/

theorem users_subset_participants (es : List Expense) (e : Expense) (he : e ∈ es) :
    e.Users.toFinset ⊆ participants es := by
  induction es with
  | nil => cases he
  | cons e' rest ih =>
    rcases List.mem_cons.1 he with rfl | hm
    · exact Finset.subset_union_left
    · exact (ih hm).trans Finset.subset_union_right

theorem sum_delta_zero (e : Expense) (S : Finset Int)
    (hsub : e.Users.toFinset ⊆ S) (hmem : e.OwnerID ∈ e.Users) (hnd : e.Users.Nodup) :
    ∑ u ∈ S, delta e u = 0 := by
  have hzero : ∀ x ∈ S, x ∉ e.Users.toFinset → delta e x = 0 := by
    intro x _ hx
    rw [delta, if_neg (fun hh => hx (List.mem_toFinset.2 hh))]
  rw [← Finset.sum_subset hsub hzero]
  have howner : e.OwnerID ∈ e.Users.toFinset := List.mem_toFinset.2 hmem
  rw [← Finset.add_sum_erase _ _ howner]
  have hrest : ∀ x ∈ e.Users.toFinset.erase e.OwnerID,
      delta e x = -(e.Amount / (e.Users.length : ℚ)) := by
    intro x hx
    obtain ⟨hne, hxm⟩ := Finset.mem_erase.1 hx
    rw [delta, if_pos (List.mem_toFinset.1 hxm), if_neg (fun hh => hne hh.symm)]
  rw [Finset.sum_congr rfl hrest, Finset.sum_const,
    Finset.card_erase_of_mem howner, List.toFinset_card_of_nodup hnd]
  rw [delta, if_pos hmem, if_pos rfl]
  have hlen : 1 ≤ e.Users.length := List.length_pos.2 (List.ne_nil_of_mem hmem)
  rw [nsmul_eq_mul]
  push_cast [hlen]
  ring

/-! ## postExpenses validation lemmas -/

theorem checkUsers_eq_false_iff (l : List Int) (self : Int) :
    ∀ seen : List Int, checkUsers l self seen = false ↔
      self ∉ l ∧ l.Nodup ∧ ∀ x ∈ l, x ∉ seen := by
  induction l with
  | nil => intro seen; simp [checkUsers]
  | cons u rest ih =>
    intro seen
    rw [checkUsers]
    by_cases h1 : u = self
    · rw [if_pos h1]
      apply iff_of_false
      · exact fun hh => Bool.noConfusion hh
      · rintro ⟨hs, _, _⟩
        exact hs (List.mem_cons.2 (Or.inl h1.symm))
    · rw [if_neg h1]
      by_cases h2 : u ∈ seen
      · rw [if_pos h2]
        apply iff_of_false
        · exact fun hh => Bool.noConfusion hh
        · rintro ⟨_, _, hall⟩
          exact hall u (List.mem_cons_self u rest) h2
      · rw [if_neg h2, ih (u :: seen)]
        constructor
        · rintro ⟨hs, hnd, hall⟩
          refine ⟨?_, ?_, ?_⟩
          · intro hmem
            rcases List.mem_cons.1 hmem with hh | hh
            · exact h1 hh.symm
            · exact hs hh
          · rw [List.nodup_cons]
            exact ⟨fun hmem => (hall u hmem) (List.mem_cons_self u seen), hnd⟩
          · intro x hx hxseen
            rcases List.mem_cons.1 hx with rfl | hh
            · exact h2 hxseen
            · exact (hall x hh) (List.mem_cons_of_mem u hxseen)
        · rintro ⟨hs, hnd, hall⟩
          have hnd' := List.nodup_cons.1 hnd
          refine ⟨fun hh => hs (List.mem_cons_of_mem u hh), hnd'.2, ?_⟩
          intro x hx hxm
          rcases List.mem_cons.1 hxm with rfl | hh
          · exact hnd'.1 hx
          · exact hall x (List.mem_cons_of_mem u hx) hh

theorem checkUsers_eq_false (l : List Int) (self : Int) :
    checkUsers l self [] = false ↔ self ∉ l ∧ l.Nodup := by
  rw [checkUsers_eq_false_iff]
  simp

theorem postExpenses_valid (req : CreateExpenseRequest) (userID : Int) (s : ApiState)
    (t : Int) (ht : req.CreatedAt = some t) (h1 : req.Description ≠ "")
    (h2 : 0 < req.Amount) (h4 : req.Users ≠ []) (h5 : userID ∉ req.Users)
    (h6 : req.Users.Nodup) :
    postExpenses req userID s =
      (201, { db := CreateExpense s.db (newExpense req userID t),
              cache := aset s.cache userID
                (CalculateBalance
                  (GetExpenses (CreateExpense s.db (newExpense req userID t)) userID)
                  userID) }) := by
  have hlen : ¬req.Users.length < 1 := Nat.not_lt.2 (List.length_pos.2 h4)
  have hcheck : checkUsers req.Users userID [] = false := (checkUsers_eq_false _ _).2 ⟨h5, h6⟩
  simp only [postExpenses, if_neg h1, if_neg (not_le.2 h2), ht, if_neg hlen, hcheck,
    Bool.false_eq_true, if_false, newExpense]

theorem postExpenses_invalid (req : CreateExpenseRequest) (userID : Int) (s : ApiState)
    (h : req.Description = "" ∨ req.Amount ≤ 0 ∨ req.CreatedAt = none ∨ req.Users = [] ∨
      userID ∈ req.Users ∨ ¬req.Users.Nodup) :
    postExpenses req userID s = (400, s) := by
  by_cases h1 : req.Description = ""
  · simp [postExpenses, h1]
  · by_cases h2 : req.Amount ≤ 0
    · simp [postExpenses, h1, h2]
    · cases hC : req.CreatedAt with
      | none => simp [postExpenses, h1, h2, hC]
      | some t =>
        by_cases h4 : req.Users.length < 1
        · simp [postExpenses, h1, h2, hC, h4]
        · cases hb : checkUsers req.Users userID [] with
          | true => simp [postExpenses, h1, h2, hC, h4, hb]
          | false =>
            obtain ⟨hs, hnd⟩ := (checkUsers_eq_false _ _).1 hb
            exfalso
            rcases h with h | h | h | h | h | h
            · exact h1 h
            · exact h2 h
            · rw [hC] at h
              exact Option.noConfusion h
            · exact h4 (by rw [h]; exact Nat.zero_lt_one)
            · exact hs h
            · exact h hnd

/-! ## Claim theorems -/

/-- C1 (counterexample): `InMemoryCache.GetBalance` on a cache with no entry
for user 1 does not return `CalculateBalance(GetExpenses(db, 1), 1)` — it
returns Go's zero-value `Balance` and performs no computation, so the claim's
read-through property fails for the `InMemoryCache` implementation of the
`Cache` interface. -/
theorem c1_counterexample :
    alookup ([] : List (Int × Balance)) 1 = none ∧
    InMemoryCache.GetBalance [] [meal] 1 ≠ CalculateBalance (GetExpenses [meal] 1) 1 := by
  refine ⟨rfl, ?_⟩
  have h1 : InMemoryCache.GetBalance [] [meal] 1 = ⟨0, [], []⟩ := rfl
  have h2 : CalculateBalance (GetExpenses [meal] 1) 1 = ⟨28, [], [⟨2, 14⟩, ⟨3, 14⟩]⟩ := by
    norm_num [GetExpenses, CalculateBalance, calcStep, amendDebts, addDebt, addAmt,
      alookup, splitDebts, meal]
  rw [h1, h2]
  intro hcontra
  have h28 : (0 : ℚ) = 28 := congrArg Balance.Balance hcontra
  norm_num at h28

/-- C1 (amended): read-through on miss holds for `RedisCache.GetBalance`: when
the cache holds no entry for the user, it returns exactly
`CalculateBalance(GetExpenses(db, u), u)`, stores that balance in the cache
under `u`, and an immediately following `GetBalance` returns the same value
from the cache without recomputation. -/
theorem c1_redis_read_through (c : List (Int × Balance)) (db : List Expense) (userID : Int)
    (h : alookup c userID = none) :
    (RedisCache.GetBalance c db userID).1 = CalculateBalance (GetExpenses db userID) userID ∧
    alookup (RedisCache.GetBalance c db userID).2 userID =
      some (CalculateBalance (GetExpenses db userID) userID) ∧
    RedisCache.GetBalance (RedisCache.GetBalance c db userID).2 db userID =
      ((RedisCache.GetBalance c db userID).1, (RedisCache.GetBalance c db userID).2) := by
  have hmiss : RedisCache.GetBalance c db userID =
      (CalculateBalance (GetExpenses db userID) userID,
        RedisCache.SetBalance c (CalculateBalance (GetExpenses db userID) userID) userID) := by
    simp [RedisCache.GetBalance, h]
  have hhit : alookup (RedisCache.SetBalance c
      (CalculateBalance (GetExpenses db userID) userID) userID) userID =
      some (CalculateBalance (GetExpenses db userID) userID) := by
    simp [RedisCache.SetBalance, alookup_aset_self]
  refine ⟨by rw [hmiss], by rw [hmiss]; exact hhit, ?_⟩
  rw [hmiss]
  simp [RedisCache.GetBalance, hhit]

/-- C1 (witness): the read-through theorem applied at the empty cache, the
one-meal database and user 1. -/
theorem c1_witness :
    alookup ([] : List (Int × Balance)) 1 = none ∧
    (RedisCache.GetBalance [] [meal] 1).1 = CalculateBalance (GetExpenses [meal] 1) 1 :=
  ⟨rfl, (c1_redis_read_through [] [meal] 1 rfl).1⟩

/-- C2: the concrete test scenarios.  After the meal expense (42 paid by user
1 for users 1,2,3): user 1 has balance 28, empty debit and credit
{2 ↦ 14, 3 ↦ 14}; users 2 and 3 have balance −14 and debit {1 ↦ 14}.  After
also the coffee expense (8 paid by user 2 for users 1,2): user 1 has balance
24 and credit {2 ↦ 10, 3 ↦ 14}; user 2 has balance −10 and debit {1 ↦ 10};
user 3 is unchanged.  Debt lists are compared per counterparty; arithmetic is
exact over ℚ. -/
theorem c2_scenarios :
    ((CalculateBalance [meal] 1).Balance = 28 ∧
      (CalculateBalance [meal] 1).Debit = [] ∧
      debtsMatch (CalculateBalance [meal] 1).Credit [⟨2, 14⟩, ⟨3, 14⟩] ∧
      (CalculateBalance [meal] 2).Balance = -14 ∧
      debtsMatch (CalculateBalance [meal] 2).Debit [⟨1, 14⟩] ∧
      (CalculateBalance [meal] 3).Balance = -14 ∧
      debtsMatch (CalculateBalance [meal] 3).Debit [⟨1, 14⟩]) ∧
    ((CalculateBalance [meal, coffee] 1).Balance = 24 ∧
      debtsMatch (CalculateBalance [meal, coffee] 1).Credit [⟨2, 10⟩, ⟨3, 14⟩] ∧
      (CalculateBalance [meal, coffee] 2).Balance = -10 ∧
      debtsMatch (CalculateBalance [meal, coffee] 2).Debit [⟨1, 10⟩] ∧
      (CalculateBalance [meal, coffee] 3).Balance = -14 ∧
      debtsMatch (CalculateBalance [meal, coffee] 3).Debit [⟨1, 14⟩]) := by
  have h1 : CalculateBalance [meal] 1 = ⟨28, [], [⟨2, 14⟩, ⟨3, 14⟩]⟩ := by
    norm_num [CalculateBalance, calcStep, amendDebts, addDebt, addAmt, alookup,
      splitDebts, meal]
  have h2 : CalculateBalance [meal] 2 = ⟨-14, [⟨1, 14⟩], []⟩ := by
    norm_num [CalculateBalance, calcStep, amendDebts, addDebt, addAmt, alookup,
      splitDebts, meal]
  have h3 : CalculateBalance [meal] 3 = ⟨-14, [⟨1, 14⟩], []⟩ := by
    norm_num [CalculateBalance, calcStep, amendDebts, addDebt, addAmt, alookup,
      splitDebts, meal]
  have h4 : CalculateBalance [meal, coffee] 1 = ⟨24, [], [⟨2, 10⟩, ⟨3, 14⟩]⟩ := by
    norm_num [CalculateBalance, calcStep, amendDebts, addDebt, addAmt, alookup,
      splitDebts, meal, coffee]
  have h5 : CalculateBalance [meal, coffee] 2 = ⟨-10, [⟨1, 10⟩], []⟩ := by
    norm_num [CalculateBalance, calcStep, amendDebts, addDebt, addAmt, alookup,
      splitDebts, meal, coffee]
  have h6 : CalculateBalance [meal, coffee] 3 = ⟨-14, [⟨1, 14⟩], []⟩ := by
    norm_num [CalculateBalance, calcStep, amendDebts, addDebt, addAmt, alookup,
      splitDebts, meal, coffee]
  exact ⟨⟨by rw [h1], by rw [h1], by rw [h1]; exact fun v => rfl,
          by rw [h2], by rw [h2]; exact fun v => rfl,
          by rw [h3], by rw [h3]; exact fun v => rfl⟩,
         ⟨by rw [h4], by rw [h4]; exact fun v => rfl,
          by rw [h5], by rw [h5]; exact fun v => rfl,
          by rw [h6], by rw [h6]; exact fun v => rfl⟩⟩

/-- C3: closed system.  For every expense list in which each expense has a
positive amount and a duplicate-free participant list containing the owner
and at least one other user, the balances of all participating users sum to
zero (exactly, over ℚ). -/
theorem c3_closed_system (expenses : List Expense)
    (h : ∀ e ∈ expenses,
      0 < e.Amount ∧ e.OwnerID ∈ e.Users ∧ e.Users.Nodup ∧ 2 ≤ e.Users.length) :
    ∑ u ∈ participants expenses, (CalculateBalance expenses u).Balance = 0 := by
  have hb : ∀ u ∈ participants expenses, (CalculateBalance expenses u).Balance
      = (expenses.map (fun e => delta e u)).sum :=
    fun u _ => CalculateBalance_BalanceField expenses u
  rw [Finset.sum_congr rfl hb]
  have haux : ∀ es : List Expense, ∀ S : Finset Int,
      (∀ e ∈ es, e.Users.toFinset ⊆ S ∧ e.OwnerID ∈ e.Users ∧ e.Users.Nodup) →
      ∑ u ∈ S, (es.map (fun e => delta e u)).sum = 0 := by
    intro es
    induction es with
    | nil => intro S _; simp
    | cons e rest ih =>
      intro S hS
      simp only [List.map_cons, List.sum_cons]
      rw [Finset.sum_add_distrib]
      have h1 := hS e (List.mem_cons_self e rest)
      rw [sum_delta_zero e S h1.1 h1.2.1 h1.2.2,
        ih S (fun e' he' => hS e' (List.mem_cons_of_mem e he')), zero_add]
  exact haux expenses (participants expenses)
    (fun e he => ⟨users_subset_participants expenses e he, (h e he).2.1, (h e he).2.2.1⟩)

/-- C3 (witness): the closed-system theorem applied to the one-meal history;
its hypotheses hold for the meal expense and the participating balances sum
to zero. -/
theorem c3_witness :
    (0 < meal.Amount ∧ meal.OwnerID ∈ meal.Users ∧ meal.Users.Nodup ∧
      2 ≤ meal.Users.length) ∧
    ∑ u ∈ participants [meal], (CalculateBalance [meal] u).Balance = 0 :=
  ⟨⟨by norm_num [meal], by decide, by decide, by decide⟩,
   c3_closed_system [meal] (by
     intro e he
     rcases List.mem_singleton.1 he with rfl
     exact ⟨by norm_num [meal], by decide, by decide, by decide⟩)⟩

/-- C4 (counterexample): with an expense whose `Users` slice contains the
owner but also a duplicate non-owner (`[1, 2, 2]`), the returned balance of
user 2 is −1 while its credit total minus debit total is −2, so the
invariant as claimed (assuming only that `Users` contains `OwnerID`) is
false. -/
theorem c4_counterexample :
    dupExpense.OwnerID ∈ dupExpense.Users ∧
    (CalculateBalance [dupExpense] 2).Balance ≠
      sumAmounts (CalculateBalance [dupExpense] 2).Credit -
        sumAmounts (CalculateBalance [dupExpense] 2).Debit := by
  refine ⟨by decide, ?_⟩
  have h : CalculateBalance [dupExpense] 2 = ⟨-1, [⟨1, 2⟩], []⟩ := by
    norm_num [CalculateBalance, calcStep, amendDebts, addDebt, addAmt, alookup,
      splitDebts, dupExpense]
  rw [h]
  norm_num [sumAmounts]

/-- C4 (amended): for every expense list in which each expense's `Users` list
is duplicate-free and contains its `OwnerID`, the balance returned by
`CalculateBalance` equals the sum of credit amounts minus the sum of debit
amounts, and no two entries of the debit list (nor of the credit list) share
a counterparty `UserID`. -/
theorem c4_invariant (expenses : List Expense) (userID : Int)
    (h : ∀ e ∈ expenses, e.OwnerID ∈ e.Users ∧ e.Users.Nodup) :
    (CalculateBalance expenses userID).Balance =
      sumAmounts (CalculateBalance expenses userID).Credit -
        sumAmounts (CalculateBalance expenses userID).Debit ∧
    ((CalculateBalance expenses userID).Debit.map Debt.UserID).Nodup ∧
    ((CalculateBalance expenses userID).Credit.map Debt.UserID).Nodup := by
  refine ⟨?_, ?_, ?_⟩
  · rw [CalculateBalance_Credit, CalculateBalance_Debit, splitDebts_sum,
      CalculateBalance_BalanceField, finalUserDebts_eq, rowSum_foldl_stepDebts]
    have hrw : ∀ e ∈ expenses, rowContribE e userID = -(delta e userID) := fun e he =>
      rowContribE_eq_neg_delta e userID (h e he).1 (h e he).2
    rw [List.map_congr_left hrw, sum_map_neg_delta]
    simp [rowOf, alookup]
  · exact List.Nodup.sublist (splitDebts_fst_keys_sublist _)
      (keys_finalUserDebts_nodup expenses userID)
  · exact List.Nodup.sublist (splitDebts_snd_keys_sublist _)
      (keys_finalUserDebts_nodup expenses userID)

/-- C4 (witness): the invariant theorem applied to the one-meal history for
user 1. -/
theorem c4_witness :
    (meal.OwnerID ∈ meal.Users ∧ meal.Users.Nodup) ∧
    ((CalculateBalance [meal] 1).Balance =
      sumAmounts (CalculateBalance [meal] 1).Credit -
        sumAmounts (CalculateBalance [meal] 1).Debit ∧
    ((CalculateBalance [meal] 1).Debit.map Debt.UserID).Nodup ∧
    ((CalculateBalance [meal] 1).Credit.map Debt.UserID).Nodup) :=
  ⟨⟨by decide, by decide⟩,
   c4_invariant [meal] 1 (by
     intro e he
     rcases List.mem_singleton.1 he with rfl
     exact ⟨by decide, by decide⟩)⟩

/-- C5: permutation invariance.  For every two expense lists that are
permutations of each other and every subject, `CalculateBalance` returns the
same balance and the same debit and credit lists when compared as sets of
(UserID, Amount) pairs. -/
theorem c5_permutation_invariance (es es' : List Expense) (u : Int) (h : es.Perm es') :
    (CalculateBalance es' u).Balance = (CalculateBalance es u).Balance ∧
    (CalculateBalance es' u).Debit.toFinset = (CalculateBalance es u).Debit.toFinset ∧
    (CalculateBalance es' u).Credit.toFinset = (CalculateBalance es u).Credit.toFinset := by
  have hsum : ∀ f : Expense → ℚ, (es'.map f).sum = (es.map f).sum :=
    fun f => ((h.map f).sum_eq).symm
  have hnet : ∀ v, netList es' u v = netList es u v := fun v => hsum _
  have htouch : ∀ v, (∃ e ∈ es', touched e u v) ↔ ∃ e ∈ es, touched e u v := by
    intro v
    constructor
    · rintro ⟨e, he, ht⟩
      exact ⟨e, h.mem_iff.2 he, ht⟩
    · rintro ⟨e, he, ht⟩
      exact ⟨e, h.mem_iff.1 he, ht⟩
  refine ⟨?_, ?_, ?_⟩
  · rw [CalculateBalance_BalanceField, CalculateBalance_BalanceField]
    exact hsum _
  · ext x
    simp only [List.mem_toFinset]
    rw [mem_Debit_iff, mem_Debit_iff, hnet, htouch]
  · ext x
    simp only [List.mem_toFinset]
    rw [mem_Credit_iff, mem_Credit_iff, hnet, htouch]

/-- C5 (witness): the permutation theorem applied to the two-expense history
and its swap. -/
theorem c5_witness :
    (CalculateBalance [coffee, meal] 1).Balance = (CalculateBalance [meal, coffee] 1).Balance ∧
    (CalculateBalance [coffee, meal] 1).Debit.toFinset =
      (CalculateBalance [meal, coffee] 1).Debit.toFinset ∧
    (CalculateBalance [coffee, meal] 1).Credit.toFinset =
      (CalculateBalance [meal, coffee] 1).Credit.toFinset :=
  c5_permutation_invariance [meal, coffee] [coffee, meal] 1 (List.Perm.swap coffee meal [])

/-- C6: write-through frame condition.  For every valid expense-creation
request by submitter `userID`, `postExpenses` answers 201, the store gains
exactly the new expense, the submitter's cache entry equals
`CalculateBalance` over the store's expense list as read after the append,
and every other user's cache entry is unchanged. -/
theorem c6_write_through (req : CreateExpenseRequest) (userID : Int) (s : ApiState)
    (h : validReq req userID) :
    (postExpenses req userID s).1 = 201 ∧
    (∃ e : Expense, (postExpenses req userID s).2.db = s.db ++ [e] ∧
      e.OwnerID = userID ∧ e.Users = req.Users ++ [userID] ∧ e.Amount = req.Amount) ∧
    alookup (postExpenses req userID s).2.cache userID =
      some (CalculateBalance (GetExpenses (postExpenses req userID s).2.db userID) userID) ∧
    ∀ v : Int, v ≠ userID →
      alookup (postExpenses req userID s).2.cache v = alookup s.cache v := by
  obtain ⟨h1, h2, h3, h4, h5, h6⟩ := h
  obtain ⟨t, ht⟩ := Option.ne_none_iff_exists'.1 h3
  rw [postExpenses_valid req userID s t ht h1 h2 h4 h5 h6]
  exact ⟨rfl, ⟨_, rfl, rfl, rfl, rfl⟩, alookup_aset_self _ _ _,
    fun v hv => alookup_aset_ne _ _ _ _ hv⟩

/-- C6 (witness): the write-through theorem applied to the valid request by
user 1 against the empty state. -/
theorem c6_witness :
    (postExpenses validRequest 1 emptyState).1 = 201 ∧
    (∃ e : Expense, (postExpenses validRequest 1 emptyState).2.db = emptyState.db ++ [e] ∧
      e.OwnerID = 1 ∧ e.Users = validRequest.Users ++ [1] ∧ e.Amount = validRequest.Amount) ∧
    alookup (postExpenses validRequest 1 emptyState).2.cache 1 =
      some (CalculateBalance
        (GetExpenses (postExpenses validRequest 1 emptyState).2.db 1) 1) ∧
    ∀ v : Int, v ≠ 1 →
      alookup (postExpenses validRequest 1 emptyState).2.cache v =
        alookup emptyState.cache v :=
  c6_write_through validRequest 1 emptyState
    ⟨by decide, by norm_num [validRequest], by decide, by decide, by decide, by decide⟩

/-- C7: validation with atomicity.  A request with an empty description, a
non-positive amount, an unparsable timestamp, an empty user list, a user list
containing the submitter, or a duplicate in the user list is answered with
400 and leaves the database and the cache untouched; a valid request appends
exactly one expense whose amount is positive, whose other-participant list is
non-empty, duplicate-free and free of the submitter, and whose stored
participant list is the others followed by the owner, each exactly once. -/
theorem c7_validation (req : CreateExpenseRequest) (userID : Int) (s : ApiState) :
    ((req.Description = "" ∨ req.Amount ≤ 0 ∨ req.CreatedAt = none ∨ req.Users = [] ∨
        userID ∈ req.Users ∨ ¬req.Users.Nodup) →
      postExpenses req userID s = (400, s)) ∧
    (validReq req userID →
      ∃ e : Expense, (postExpenses req userID s).2.db = s.db ++ [e] ∧
        e.OwnerID = userID ∧ e.Amount = req.Amount ∧ 0 < e.Amount ∧
        e.Users = req.Users ++ [userID] ∧ req.Users ≠ [] ∧ req.Users.Nodup ∧
        userID ∉ req.Users ∧ e.Users.Nodup) := by
  constructor
  · exact postExpenses_invalid req userID s
  · rintro ⟨h1, h2, h3, h4, h5, h6⟩
    obtain ⟨t, ht⟩ := Option.ne_none_iff_exists'.1 h3
    rw [postExpenses_valid req userID s t ht h1 h2 h4 h5 h6]
    refine ⟨_, rfl, rfl, rfl, h2, rfl, h4, h6, h5, ?_⟩
    exact List.Nodup.append h6 (List.nodup_singleton _)
      (fun a ha hb => h5 (by
        have hx := List.mem_singleton.1 hb
        subst hx
        exact ha))

/-- C7 (witness): the validation theorem applied to a request with a negative
amount (400, state unchanged) and to the valid request (an expense is
appended with the stated shape). -/
theorem c7_witness :
    postExpenses invalidRequest 1 emptyState = (400, emptyState) ∧
    (∃ e : Expense, (postExpenses validRequest 1 emptyState).2.db = emptyState.db ++ [e] ∧
      e.OwnerID = 1 ∧ e.Amount = validRequest.Amount ∧ 0 < e.Amount ∧
      e.Users = validRequest.Users ++ [1] ∧ validRequest.Users ≠ [] ∧
      validRequest.Users.Nodup ∧ (1 : Int) ∉ validRequest.Users ∧ e.Users.Nodup) :=
  ⟨(c7_validation invalidRequest 1 emptyState).1
      (Or.inr (Or.inl (by norm_num [invalidRequest]))),
   (c7_validation validRequest 1 emptyState).2
      ⟨by decide, by norm_num [validRequest], by decide, by decide, by decide, by decide⟩⟩

/-- C8 (counterexample): `GetExpenses` does not filter by participation: for
the one-meal store and user 5, who neither owns the meal nor appears in its
user list, the result still contains the meal, so the listing is not
"exactly the expenses in which the user participates". -/
theorem c8_counterexample :
    GetExpenses [meal] 5 = [meal] ∧ meal ∈ GetExpenses [meal] 5 ∧
    5 ∉ meal.Users ∧ meal.OwnerID ≠ 5 :=
  ⟨rfl, List.mem_cons_self _ _, by decide, by decide⟩

/-- C8 (amended): `GetExpenses(db, u)` returns the entire stored expense list
unfiltered; in particular it contains every expense in which `u`
participates (no omission), but it also returns the expenses in which `u`
does not participate. -/
theorem c8_store_superset (db : List Expense) (userID : Int) :
    GetExpenses db userID = db ∧ ∀ e ∈ db, e ∈ GetExpenses db userID :=
  ⟨rfl, fun _ he => he⟩

/-- C8 (witness): the amended listing theorem applied to the one-meal store
and user 2. -/
theorem c8_witness :
    GetExpenses [meal] 2 = [meal] ∧ meal ∈ GetExpenses [meal] 2 :=
  ⟨(c8_store_superset [meal] 2).1,
   (c8_store_superset [meal] 2).2 meal (List.mem_cons_self _ _)⟩

/-- C9: participation is decided solely by the `Users` slice.  An expense in
whose `Users` list the subject does not appear contributes nothing to
`CalculateBalance` (even when the subject is its `OwnerID`), and for a
participating subject the balance contribution of a single expense is
`(n−1)·(Amount/n)` for the owner and `−Amount/n` otherwise, where `n` is the
length of `Users`. -/
theorem c9_participation (e : Expense) (es : List Expense) (u : Int) :
    (u ∉ e.Users → CalculateBalance (e :: es) u = CalculateBalance es u) ∧
    (u ∈ e.Users → (CalculateBalance [e] u).Balance =
      (if e.OwnerID = u then
        ((e.Users.length : ℚ) - 1) * (e.Amount / (e.Users.length : ℚ))
      else -(e.Amount / (e.Users.length : ℚ)))) := by
  constructor
  · intro h
    have hstep : calcStep u (0, ([] : Debts)) e = (0, []) := by
      simp [calcStep, h]
    simp only [CalculateBalance, List.foldl_cons, hstep]
  · intro h
    rw [CalculateBalance_BalanceField]
    simp [delta, h]

/-- C9 (witness): user 5 is not in the meal's user list, so the meal
contributes nothing; user 1 is a non-owner participant of the coffee, so the
balance is −8/2. -/
theorem c9_witness :
    CalculateBalance [meal] 5 = CalculateBalance [] 5 ∧
    (CalculateBalance [coffee] 1).Balance =
      (if coffee.OwnerID = 1 then
        ((coffee.Users.length : ℚ) - 1) * (coffee.Amount / (coffee.Users.length : ℚ))
      else -(coffee.Amount / (coffee.Users.length : ℚ))) :=
  ⟨(c9_participation meal [] 5).1 (by decide),
   (c9_participation coffee [] 1).2 (by decide)⟩

/-- C10: output signs and placement of zero.  Every debit entry produced by
`CalculateBalance` has a strictly positive amount, every credit entry a
non-negative amount, and a counterparty whose accumulated net amount in the
subject's debts row is exactly zero is emitted in the credit list with
amount 0 rather than being dropped. -/
theorem c10_output_signs (expenses : List Expense) (userID : Int) :
    (∀ d ∈ (CalculateBalance expenses userID).Debit, 0 < d.Amount) ∧
    (∀ d ∈ (CalculateBalance expenses userID).Credit, 0 ≤ d.Amount) ∧
    (∀ p ∈ finalUserDebts expenses userID, p.2 = 0 →
      (⟨p.1, 0⟩ : Debt) ∈ (CalculateBalance expenses userID).Credit) := by
  refine ⟨?_, ?_, ?_⟩
  · intro d hd
    rw [CalculateBalance_Debit, mem_splitDebts_fst] at hd
    obtain ⟨p, _, hpos, rfl⟩ := hd
    exact hpos
  · intro d hd
    rw [CalculateBalance_Credit, mem_splitDebts_snd] at hd
    obtain ⟨p, _, hpos, rfl⟩ := hd
    simpa using neg_nonneg.2 (le_of_not_lt hpos)
  · intro p hp hzero
    rw [CalculateBalance_Credit, mem_splitDebts_snd]
    refine ⟨p, hp, ?_, ?_⟩
    · rw [hzero]
      exact lt_irrefl 0
    · rw [hzero]
      simp

/-- C10 (witness): the sign theorem applied to the meal history (debit entry
of user 2 towards user 1 is positive) and to two mutually cancelling
expenses between users 1 and 2, whose zero net is emitted as a credit entry
of amount 0. -/
theorem c10_witness :
    0 < (Debt.mk 1 14).Amount ∧
    (⟨2, 0⟩ : Debt) ∈ (CalculateBalance [evenA, evenB] 1).Credit := by
  constructor
  · have hev : CalculateBalance [meal] 2 = ⟨-14, [⟨1, 14⟩], []⟩ := by
      norm_num [CalculateBalance, calcStep, amendDebts, addDebt, addAmt, alookup,
        splitDebts, meal]
    exact (c10_output_signs [meal] 2).1 ⟨1, 14⟩ (by rw [hev]; exact List.mem_cons_self _ _)
  · have hev : finalUserDebts [evenA, evenB] 1 = [(2, 0)] := by
      norm_num [finalUserDebts, calcStep, amendDebts, addDebt, addAmt, alookup,
        evenA, evenB]
    exact (c10_output_signs [evenA, evenB] 1).2.2 (2, 0)
      (by rw [hev]; exact List.mem_cons_self _ _) rfl
